import Mathlib

/-!
Verification of the interactive shell (line editor, tokenizer, completion
engine, evaluator) against its specification.  All definitions are shallow
embeddings of the Rust source in `src/main.rs`: the buffer of the line
editor is a `List Char` (the editor only ever receives ASCII characters
32..126, so Rust byte offsets coincide with character offsets), fallible
filesystem operations are parameterised by oracles (`openable`,
`pathExists`, ...), and process state is passed explicitly.
-/

set_option maxRecDepth 10000

/-! ## Line editor (`LineEditor` in src/main.rs) -/

/-- `u8::is_ascii_whitespace` from the Rust standard library:
space, horizontal tab, newline, carriage return, form feed. -/
def isAsciiWhitespace (c : Char) : Bool :=
  c = ' ' || c = '\t' || c = '\n' || c = '\r' || c = '\x0C'

/-- The line editor state: an editable buffer and a cursor offset
(`struct LineEditor { buffer: String, cursor: usize }`). -/
structure LineEditor where
  buffer : List Char
  cursor : Nat
deriving DecidableEq

/-- `LineEditor::new` -/
def LineEditor.new : LineEditor := { buffer := [], cursor := 0 }

/-- `LineEditor::clear` -/
def LineEditor.clear (_ : LineEditor) : LineEditor := { buffer := [], cursor := 0 }

/-- `LineEditor::insert`: insert at the cursor, cursor advances by one. -/
def LineEditor.insert (e : LineEditor) (ch : Char) : LineEditor :=
  { buffer := e.buffer.take e.cursor ++ ch :: e.buffer.drop e.cursor,
    cursor := e.cursor + 1 }

/-- `LineEditor::backspace`: remove the character before the cursor when
`cursor > 0`, otherwise a no-op. -/
def LineEditor.backspace (e : LineEditor) : LineEditor :=
  if e.cursor > 0 then
    { buffer := e.buffer.eraseIdx (e.cursor - 1), cursor := e.cursor - 1 }
  else e

/-- `LineEditor::delete`: remove the character at the cursor when
`cursor < buffer.len()`, otherwise a no-op. -/
def LineEditor.delete (e : LineEditor) : LineEditor :=
  if e.cursor < e.buffer.length then
    { buffer := e.buffer.eraseIdx e.cursor, cursor := e.cursor }
  else e

/-- `LineEditor::move_left` -/
def LineEditor.move_left (e : LineEditor) : LineEditor :=
  if e.cursor > 0 then { e with cursor := e.cursor - 1 } else e

/-- `LineEditor::move_right` -/
def LineEditor.move_right (e : LineEditor) : LineEditor :=
  if e.cursor < e.buffer.length then { e with cursor := e.cursor + 1 } else e

/-- `LineEditor::move_home` -/
def LineEditor.move_home (e : LineEditor) : LineEditor :=
  { e with cursor := 0 }

/-- `LineEditor::move_end` -/
def LineEditor.move_end (e : LineEditor) : LineEditor :=
  { e with cursor := e.buffer.length }

/-- The backward scan of `get_word_at_cursor`:
`while start > 0 && !bytes[start - 1].is_ascii_whitespace() { start -= 1 }`. -/
def scanBack (buf : List Char) : Nat → Nat
  | 0 => 0
  | s + 1 => if isAsciiWhitespace (buf.getD s ' ') then s + 1 else scanBack buf s

/-- The forward scan of `get_word_at_cursor`:
`while end < buffer.len() && !bytes[end].is_ascii_whitespace() { end += 1 }`.
The loop guard `end < buffer.len()` is carried as the remaining-iteration
count `left = buffer.len() - end` (zero exactly when the guard fails),
which makes the recursion structural. -/
def scanFwdGo (buf : List Char) : Nat → Nat → Nat
  | 0, e => e
  | left + 1, e =>
      if isAsciiWhitespace (buf.getD e ' ') then e else scanFwdGo buf left (e + 1)

/-- The forward scan, entered with the loop guard in fuel form. -/
def scanFwd (buf : List Char) (e : Nat) : Nat :=
  scanFwdGo buf (buf.length - e) e

/-- `LineEditor::get_word_at_cursor`: the scan start is the cursor clamped
to `len - 1` (saturating), the scan end starts at the cursor; returns
`(start, end, &buffer[start..end])` when `start < end`. -/
def LineEditor.get_word_at_cursor (e : LineEditor) : Option (Nat × Nat × List Char) :=
  if e.buffer.isEmpty then none
  else
    let start := scanBack e.buffer (min e.cursor (e.buffer.length - 1))
    let stop := scanFwd e.buffer e.cursor
    if start < stop then some (start, stop, (e.buffer.drop start).take (stop - start))
    else none

/-- `LineEditor::replace_word`: `buffer.replace_range(start..end, replacement)`
and `cursor = start + replacement.len()`. -/
def LineEditor.replace_word (e : LineEditor) (start stop : Nat) (repl : List Char) : LineEditor :=
  { buffer := e.buffer.take start ++ repl ++ e.buffer.drop stop,
    cursor := start + repl.length }

/-- The cursor invariant of the spec: `0 <= cursor <= length(buffer)`
(the lower bound is automatic for `Nat`). -/
def LineEditor.inv (e : LineEditor) : Prop := e.cursor ≤ e.buffer.length

/-- The editing operations driven by the key loop in `read_line` /
`handle_tab`.  `replaceWord` carries only the replacement text: its
`(start, stop)` arguments always come from `get_word_at_cursor`, exactly as
in `handle_tab`. -/
inductive EditOp where
  | insert (ch : Char)
  | backspace
  | delete
  | moveLeft
  | moveRight
  | moveHome
  | moveEnd
  | replaceWord (repl : List Char)
  | clear
deriving DecidableEq

/-- Apply one editing operation. -/
def applyOp (e : LineEditor) : EditOp → LineEditor
  | .insert ch => e.insert ch
  | .backspace => e.backspace
  | .delete => e.delete
  | .moveLeft => e.move_left
  | .moveRight => e.move_right
  | .moveHome => e.move_home
  | .moveEnd => e.move_end
  | .replaceWord repl =>
      match e.get_word_at_cursor with
      | some (start, stop, _) => e.replace_word start stop repl
      | none => e
  | .clear => e.clear

/-- Apply a sequence of editing operations. -/
def applyOps (e : LineEditor) (ops : List EditOp) : LineEditor :=
  ops.foldl applyOp e

theorem scanBack_le (buf : List Char) (s : Nat) : scanBack buf s ≤ s := by
  induction s with
  | zero => simp [scanBack]
  | succ n ih =>
      rw [scanBack]
      split
      · omega
      · omega

theorem scanFwdGo_ge (buf : List Char) (left : Nat) :
    ∀ e, e ≤ scanFwdGo buf left e := by
  induction left with
  | zero => intro e; simp [scanFwdGo]
  | succ n ih =>
      intro e
      rw [scanFwdGo]
      split
      · omega
      · have := ih (e + 1)
        omega

theorem scanFwdGo_le (buf : List Char) (left : Nat) :
    ∀ e, scanFwdGo buf left e ≤ e + left := by
  induction left with
  | zero => intro e; simp [scanFwdGo]
  | succ n ih =>
      intro e
      rw [scanFwdGo]
      split
      · omega
      · have := ih (e + 1)
        omega

theorem scanFwd_ge (buf : List Char) (e : Nat) : e ≤ scanFwd buf e :=
  scanFwdGo_ge buf (buf.length - e) e

theorem scanFwd_le (buf : List Char) (e : Nat) (h : e ≤ buf.length) :
    scanFwd buf e ≤ buf.length := by
  have := scanFwdGo_le buf (buf.length - e) e
  unfold scanFwd
  omega

/-- When `get_word_at_cursor` returns a word, its start is strictly inside
the buffer and its end is at most the buffer length (for a valid cursor). -/
theorem get_word_bounds (e : LineEditor) (start stop : Nat) (w : List Char)
    (hc : e.cursor ≤ e.buffer.length)
    (h : e.get_word_at_cursor = some (start, stop, w)) :
    start < e.buffer.length ∧ stop ≤ e.buffer.length ∧ start < stop := by
  simp only [LineEditor.get_word_at_cursor] at h
  split at h
  · exact absurd h (by simp)
  · next hne =>
    split at h
    · next hlt =>
      have hnil : e.buffer ≠ [] := by simpa [List.isEmpty_iff] using hne
      have hpos : 0 < e.buffer.length := List.length_pos.mpr hnil
      have h1 := scanBack_le e.buffer (min e.cursor (e.buffer.length - 1))
      have h2 := scanFwd_le e.buffer e.cursor hc
      simp only [Option.some.injEq, Prod.mk.injEq] at h
      obtain ⟨hs, ht, _⟩ := h
      refine ⟨?_, ?_, ?_⟩
      · omega
      · omega
      · omega
    · exact absurd h (by simp)

theorem applyOp_inv (e : LineEditor) (op : EditOp) (h : e.inv) : (applyOp e op).inv := by
  cases op with
  | insert ch =>
      simp only [applyOp, LineEditor.insert, LineEditor.inv] at *
      simp only [List.length_append, List.length_take, List.length_cons, List.length_drop]
      omega
  | backspace =>
      simp only [applyOp, LineEditor.backspace, LineEditor.inv] at *
      split
      · simp only [List.length_eraseIdx]
        split <;> omega
      · exact h
  | delete =>
      simp only [applyOp, LineEditor.delete, LineEditor.inv] at *
      split
      · next hlt =>
        simp only [List.length_eraseIdx]
        split <;> omega
      · exact h
  | moveLeft =>
      simp only [applyOp, LineEditor.move_left, LineEditor.inv] at *
      split
      · show e.cursor - 1 ≤ e.buffer.length
        omega
      · exact h
  | moveRight =>
      simp only [applyOp, LineEditor.move_right, LineEditor.inv] at *
      split
      · next hlt =>
        show e.cursor + 1 ≤ e.buffer.length
        omega
      · exact h
  | moveHome => simp [applyOp, LineEditor.move_home, LineEditor.inv]
  | moveEnd => simp [applyOp, LineEditor.move_end, LineEditor.inv]
  | replaceWord repl =>
      simp only [applyOp, LineEditor.inv] at *
      split
      · next start stop w hw =>
        obtain ⟨hs, ht, _⟩ := get_word_bounds e start stop w h hw
        simp only [LineEditor.replace_word, List.length_append, List.length_take,
          List.length_drop]
        omega
      · exact h
  | clear => simp [applyOp, LineEditor.clear, LineEditor.inv]

theorem applyOps_inv (e : LineEditor) (ops : List EditOp) (h : e.inv) :
    (applyOps e ops).inv := by
  induction ops generalizing e with
  | nil => exact h
  | cons op rest ih => exact ih (applyOp e op) (applyOp_inv e op h)

/-- C1: every line-editor operation (insert, backspace, delete, the cursor
moves, replace-word with arguments obtained from `get_word_at_cursor`, and
clear) preserves the invariant `0 ≤ cursor ≤ length(buffer)`, hence the
invariant holds after every operation of every operation sequence; and the
boundary cases — backspace at position 0, delete at the end, moving left at
0 or right at the end — are no-ops rather than errors. -/
theorem C1_editor_invariant (e : LineEditor) (ops : List EditOp) (h : e.inv) :
    (applyOps e ops).inv ∧
    (∀ op : EditOp, (applyOp e op).inv) ∧
    (e.cursor = 0 → e.backspace = e) ∧
    (e.cursor = e.buffer.length → e.delete = e) ∧
    (e.cursor = 0 → e.move_left = e) ∧
    (e.cursor = e.buffer.length → e.move_right = e) := by
  refine ⟨applyOps_inv e ops h, fun op => applyOp_inv e op h, ?_, ?_, ?_, ?_⟩
  · intro h0
    simp [LineEditor.backspace, h0]
  · intro h0
    simp [LineEditor.delete, h0]
  · intro h0
    simp [LineEditor.move_left, h0]
  · intro h0
    simp [LineEditor.move_right, h0]

/-- Witness for C1 at a concrete editor state and operation sequence. -/
theorem C1_editor_invariant_witness :
    (LineEditor.mk ['a', 'b'] 2).inv ∧
    (applyOps (LineEditor.mk ['a', 'b'] 2)
      [.insert 'c', .moveLeft, .backspace, .delete, .moveHome, .moveRight,
       .replaceWord ['x', 'y'], .moveEnd, .clear]).inv :=
  ⟨by unfold LineEditor.inv; decide,
   (C1_editor_invariant (LineEditor.mk ['a', 'b'] 2)
      [.insert 'c', .moveLeft, .backspace, .delete, .moveHome, .moveRight,
       .replaceWord ['x', 'y'], .moveEnd, .clear]
      (by unfold LineEditor.inv; decide)).1⟩

/-! ## Tokenizer (`Shell::parse_arguments` in src/main.rs) -/

/-- `enum StreamType { Stdout, Stderr }` -/
inductive StreamType where
  | Stdout
  | Stderr
deriving DecidableEq

/-- `struct Redirect { stream, file, append }` -/
structure Redirect where
  stream : StreamType
  file : String
  append : Bool
deriving DecidableEq

/-- `struct ParsedCommand { args, redirects }` -/
structure ParsedCommand where
  args : List String
  redirects : List Redirect
deriving DecidableEq

/-- `ParsedCommand::new` -/
def ParsedCommand.new : ParsedCommand := { args := [], redirects := [] }

/-- The mutable locals of the `parse_arguments` scan loop. -/
structure ParseState where
  result : ParsedCommand
  current_arg : String
  in_single_quote : Bool
  in_double_quote : Bool
  expecting_file : Bool
  current_redirect : Option Redirect
deriving DecidableEq

/-- The state at the top of `parse_arguments`. -/
def ParseState.init : ParseState :=
  { result := ParsedCommand.new, current_arg := "", in_single_quote := false,
    in_double_quote := false, expecting_file := false, current_redirect := none }

/-- The argument-flush idiom of `parse_arguments`:
`if !current_arg.is_empty() { result.args.push(current_arg.clone()); current_arg.clear(); }`. -/
def flushArg (s : ParseState) : ParseState :=
  if s.current_arg.isEmpty then s
  else
    { s with
      result := { s.result with args := s.result.args ++ [s.current_arg] },
      current_arg := "" }

/-- The code after the scan loop of `parse_arguments`: a non-empty pending
accumulator becomes the open redirect's target, or else a trailing argument. -/
def finishParse (s : ParseState) : ParsedCommand :=
  if s.current_arg.isEmpty then s.result
  else
    match s.current_redirect with
    | some r =>
        { s.result with redirects := s.result.redirects ++ [{ r with file := s.current_arg }] }
    | none => { s.result with args := s.result.args ++ [s.current_arg] }

/-- One iteration of the scan loop of `parse_arguments`: consume the
character `c` (and possibly one or two peeked characters from `rest`),
returning the updated locals and the remaining characters.  The branch
structure mirrors the Rust `match` arms in their textual order (the guards
of later arms include the negations of earlier guards, as Rust arm
precedence dictates). -/
def parseStep (s : ParseState) (c : Char) (rest : List Char) : ParseState × List Char :=
  if s.expecting_file && !s.in_single_quote && !s.in_double_quote then
    -- redirect-target mode: space closes the redirect (when a target has
    -- accumulated), a quote enters quote mode, anything else accumulates
    if c = ' ' then
      if !s.current_arg.isEmpty then
        match s.current_redirect with
        | some r =>
            ({ s with
               result :=
                 { s.result with
                   redirects := s.result.redirects ++ [{ r with file := s.current_arg }] },
               current_arg := "", expecting_file := false, current_redirect := none }, rest)
        | none => ({ s with current_redirect := none }, rest)
      else (s, rest)
    else if c = '\x27' then ({ s with in_single_quote := true }, rest)
    else if c = '"' then ({ s with in_double_quote := true }, rest)
    else ({ s with current_arg := s.current_arg.push c }, rest)
  else if c = '\\' && s.in_double_quote then
    -- backslash in double quotes escapes only " \ $ and backquote
    match rest with
    | next :: rest2 =>
        if next = '"' || next = '\\' || next = '$' || next = '\x60' then
          ({ s with current_arg := s.current_arg.push next }, rest2)
        else ({ s with current_arg := s.current_arg.push '\\' }, next :: rest2)
    | [] => ({ s with current_arg := s.current_arg.push '\\' }, [])
  else if c = '\\' && !s.in_single_quote then
    -- backslash outside quotes literalizes the next character
    match rest with
    | next :: rest2 => ({ s with current_arg := s.current_arg.push next }, rest2)
    | [] => (s, [])
  else if c = '\x27' && !s.in_double_quote then
    ({ s with in_single_quote := !s.in_single_quote }, rest)
  else if c = '"' && !s.in_single_quote then
    ({ s with in_double_quote := !s.in_double_quote }, rest)
  else if c = '2' && !s.in_single_quote && !s.in_double_quote then
    match rest with
    | '>' :: '>' :: rest3 =>
        ({ flushArg s with
           current_redirect := some ⟨StreamType.Stderr, "", true⟩,
           expecting_file := true }, rest3)
    | '>' :: rest2 =>
        ({ flushArg s with
           current_redirect := some ⟨StreamType.Stderr, "", false⟩,
           expecting_file := true }, rest2)
    | other => ({ s with current_arg := s.current_arg.push '2' }, other)
  else if c = '1' && !s.in_single_quote && !s.in_double_quote then
    match rest with
    | '>' :: '>' :: rest3 =>
        ({ flushArg s with
           current_redirect := some ⟨StreamType.Stdout, "", true⟩,
           expecting_file := true }, rest3)
    | '>' :: rest2 =>
        ({ flushArg s with
           current_redirect := some ⟨StreamType.Stdout, "", false⟩,
           expecting_file := true }, rest2)
    | other => ({ s with current_arg := s.current_arg.push '1' }, other)
  else if c = '>' && !s.in_single_quote && !s.in_double_quote then
    match rest with
    | '>' :: rest2 =>
        ({ flushArg s with
           current_redirect := some ⟨StreamType.Stdout, "", true⟩,
           expecting_file := true }, rest2)
    | other =>
        ({ flushArg s with
           current_redirect := some ⟨StreamType.Stdout, "", false⟩,
           expecting_file := true }, other)
  else if c = ' ' && !s.in_single_quote && !s.in_double_quote then
    (flushArg s, rest)
  else ({ s with current_arg := s.current_arg.push c }, rest)

/-- The scan loop of `parse_arguments`, driven by a step count that never
runs out because every iteration consumes at least the leading character
(`parseStep_length_le` below); the fuel makes the recursion structural. -/
def parseLoopF : Nat → ParseState → List Char → ParsedCommand
  | _, s, [] => finishParse s
  | 0, s, _ :: _ => finishParse s
  | fuel + 1, s, c :: rest => parseLoopF fuel (parseStep s c rest).1 (parseStep s c rest).2

/-- The scan loop of `parse_arguments` over the remaining characters. -/
def parseLoop (s : ParseState) (l : List Char) : ParsedCommand :=
  parseLoopF l.length s l

/-- `Shell::parse_arguments` -/
def parse_arguments (input : String) : ParsedCommand :=
  parseLoop ParseState.init input.toList

/-- Rust `str::trim`: drop whitespace from both ends.  (Embedded directly
with `dropWhile` because `String.trim` from the Lean library is defined by
well-founded recursion and does not reduce in the kernel.) -/
def rustTrim (line : String) : String :=
  String.mk (((line.toList.dropWhile Char.isWhitespace).reverse.dropWhile
    Char.isWhitespace).reverse)

/-- `Shell::parse`: tokenize the trimmed line and split off the command name. -/
def Shell.parse (line : String) : String × ParsedCommand :=
  let parsed := parse_arguments (rustTrim line)
  match parsed.args with
  | [] => ("", parsed)
  | command :: rest => (command, { args := rest, redirects := parsed.redirects })

theorem parseStep_length_le (s : ParseState) (c : Char) (rest : List Char) :
    (parseStep s c rest).2.length ≤ rest.length := by
  unfold parseStep
  repeat' split
  all_goals simp_all
  all_goals omega

theorem parseLoopF_irrel (f1 : Nat) (f2 : Nat) (s : ParseState) (l : List Char)
    (h1 : l.length ≤ f1) (h2 : l.length ≤ f2) :
    parseLoopF f1 s l = parseLoopF f2 s l := by
  induction f1 generalizing f2 s l with
  | zero =>
      cases l with
      | nil => cases f2 <;> rfl
      | cons c rest => simp at h1
  | succ n ih =>
      cases l with
      | nil => cases f2 <;> rfl
      | cons c rest =>
          cases f2 with
          | zero => simp at h2
          | succ m =>
              simp only [parseLoopF]
              have hs := parseStep_length_le s c rest
              simp only [List.length_cons] at h1 h2
              exact ih m _ _ (by omega) (by omega)

theorem parseLoop_nil (s : ParseState) : parseLoop s [] = finishParse s := rfl

/-- Unfolding equation for the scan loop: one iteration is one `parseStep`. -/
theorem parseLoop_cons (s : ParseState) (c : Char) (rest : List Char) :
    parseLoop s (c :: rest) =
      parseLoop (parseStep s c rest).1 (parseStep s c rest).2 := by
  unfold parseLoop
  simp only [List.length_cons, parseLoopF]
  have hs := parseStep_length_le s c rest
  exact parseLoopF_irrel _ _ _ _ (by omega) le_rfl

/-- C3: the tokenizer treats single-quoted content as fully literal and
preserves interior spaces: `echo 'a  b'` parses to `["echo", "a  b"]` and
`echo "a\"b"` parses to `["echo", "a\"b"]`; inside double quotes a
backslash escapes exactly the characters `"`, `\`, `$`, backquote
(consuming and literalizing the next character) and is kept literally
before any other character; inside single quotes every character other
than the closing quote is taken literally. -/
theorem C3_quoting :
    parse_arguments ("echo 'a  b'") = ⟨["echo", "a  b"], []⟩ ∧
    parse_arguments ("echo \"a\\\"b\"") = ⟨["echo", "a\"b"], []⟩ ∧
    (∀ (s : ParseState) (c : Char) (rest : List Char),
      s.in_double_quote = true →
      (c = '"' ∨ c = '\\' ∨ c = '$' ∨ c = '\x60') →
      parseLoop s ('\\' :: c :: rest) =
        parseLoop { s with current_arg := s.current_arg.push c } rest) ∧
    (∀ (s : ParseState) (c : Char) (rest : List Char),
      s.in_double_quote = true →
      ¬(c = '"' ∨ c = '\\' ∨ c = '$' ∨ c = '\x60') →
      parseLoop s ('\\' :: c :: rest) =
        parseLoop { s with current_arg := s.current_arg.push '\\' } (c :: rest)) ∧
    (∀ (s : ParseState) (c : Char) (rest : List Char),
      s.in_single_quote = true → s.in_double_quote = false → c ≠ '\x27' →
      parseLoop s (c :: rest) =
        parseLoop { s with current_arg := s.current_arg.push c } rest) := by
  refine ⟨by decide, by decide, ?_, ?_, ?_⟩
  · intro s c rest hd hc
    rw [parseLoop_cons]
    rcases hc with h | h | h | h <;> subst h <;> simp [parseStep, hd]
  · intro s c rest hd hc
    rw [parseLoop_cons]
    push_neg at hc
    obtain ⟨h1, h2, h3, h4⟩ := hc
    simp [parseStep, hd, h1, h2, h3, h4]
  · intro s c rest hs hd hc
    rw [parseLoop_cons]
    simp [parseStep, hs, hd, hc]

/-- Witness for C3: the backslash rule and the single-quote rule applied at
concrete states. -/
theorem C3_quoting_witness :
    parseLoop (ParseState.mk ParsedCommand.new "" true false false none) ['x'] =
      parseLoop (ParseState.mk ParsedCommand.new "x" true false false none) [] ∧
    parseLoop (ParseState.mk ParsedCommand.new "" false true false none) ['\\', '$'] =
      parseLoop (ParseState.mk ParsedCommand.new "$" false true false none) [] := by
  constructor
  · have h := C3_quoting.2.2.2.2 (ParseState.mk ParsedCommand.new "" true false false none)
      'x' [] rfl rfl (by decide)
    simpa using h
  · have h := C3_quoting.2.2.1 (ParseState.mk ParsedCommand.new "" false true false none)
      '$' [] rfl (by simp)
    simpa using h

/-- C4: `echo hi > out.txt` parses to argument `hi` (after the command
name) and one stdout redirect to `out.txt` with `append = false`;
`echo hi >> out.txt` gives the same with `append = true`; `ls 2> err.txt`
gives one stderr redirect; and whenever a redirect operator (`>`, `>>`,
`2>`, `2>>`, `1>`, `1>>`) opens outside quotes, any accumulated argument
text is flushed as a completed argument before the redirect begins. -/
theorem C4_redirect_parsing :
    Shell.parse ("echo hi > out.txt") =
      ("echo", ⟨["hi"], [⟨StreamType.Stdout, "out.txt", false⟩]⟩) ∧
    Shell.parse ("echo hi >> out.txt") =
      ("echo", ⟨["hi"], [⟨StreamType.Stdout, "out.txt", true⟩]⟩) ∧
    Shell.parse ("ls 2> err.txt") =
      ("ls", ⟨[], [⟨StreamType.Stderr, "err.txt", false⟩]⟩) ∧
    (∀ (s : ParseState),
      s.current_arg.isEmpty = false →
      (flushArg s).result.args = s.result.args ++ [s.current_arg] ∧
      (flushArg s).current_arg = "" ∧
      (flushArg s).result.redirects = s.result.redirects) ∧
    (∀ (s : ParseState) (rest : List Char),
      s.in_single_quote = false → s.in_double_quote = false →
      s.expecting_file = false →
      (parseLoop s ('>' :: '>' :: rest) =
        parseLoop { flushArg s with
          current_redirect := some ⟨StreamType.Stdout, "", true⟩,
          expecting_file := true } rest) ∧
      (rest.head? ≠ some '>' →
        parseLoop s ('>' :: rest) =
          parseLoop { flushArg s with
            current_redirect := some ⟨StreamType.Stdout, "", false⟩,
            expecting_file := true } rest) ∧
      (parseLoop s ('1' :: '>' :: '>' :: rest) =
        parseLoop { flushArg s with
          current_redirect := some ⟨StreamType.Stdout, "", true⟩,
          expecting_file := true } rest) ∧
      (rest.head? ≠ some '>' →
        parseLoop s ('1' :: '>' :: rest) =
          parseLoop { flushArg s with
            current_redirect := some ⟨StreamType.Stdout, "", false⟩,
            expecting_file := true } rest) ∧
      (parseLoop s ('2' :: '>' :: '>' :: rest) =
        parseLoop { flushArg s with
          current_redirect := some ⟨StreamType.Stderr, "", true⟩,
          expecting_file := true } rest) ∧
      (rest.head? ≠ some '>' →
        parseLoop s ('2' :: '>' :: rest) =
          parseLoop { flushArg s with
            current_redirect := some ⟨StreamType.Stderr, "", false⟩,
            expecting_file := true } rest)) := by
  refine ⟨by decide, by decide, by decide, ?_, ?_⟩
  · intro s h4
    simp [flushArg, h4]
  · intro s rest h1 h2 h3
    refine ⟨?_, ?_, ?_, ?_, ?_, ?_⟩
    · rw [parseLoop_cons]
      simp [parseStep, h1, h2, h3]
    · intro h5
      rw [parseLoop_cons]
      cases rest with
      | nil => simp [parseStep, h1, h2, h3]
      | cons x xs =>
          simp only [List.head?] at h5
          have hx : x ≠ '>' := by intro h; exact h5 (by rw [h])
          simp [parseStep, h1, h2, h3, hx]
    · rw [parseLoop_cons]
      simp [parseStep, h1, h2, h3]
    · intro h5
      rw [parseLoop_cons]
      cases rest with
      | nil => simp [parseStep, h1, h2, h3]
      | cons x xs =>
          simp only [List.head?] at h5
          have hx : x ≠ '>' := by intro h; exact h5 (by rw [h])
          simp [parseStep, h1, h2, h3, hx]
    · rw [parseLoop_cons]
      simp [parseStep, h1, h2, h3]
    · intro h5
      rw [parseLoop_cons]
      cases rest with
      | nil => simp [parseStep, h1, h2, h3]
      | cons x xs =>
          simp only [List.head?] at h5
          have hx : x ≠ '>' := by intro h; exact h5 (by rw [h])
          simp [parseStep, h1, h2, h3, hx]

/-- Witness for C4: the argument-flush behavior at a concrete parser state
(pending text `hi`, one argument `echo` already emitted). -/
theorem C4_redirect_parsing_witness :
    (flushArg (ParseState.mk ⟨["echo"], []⟩ "hi" false false false none)).result.args =
      ["echo", "hi"] ∧
    parseLoop (ParseState.mk ⟨["echo"], []⟩ "hi" false false false none)
        ['>', ' ', 'f'] =
      parseLoop { flushArg (ParseState.mk ⟨["echo"], []⟩ "hi" false false false none) with
        current_redirect := some ⟨StreamType.Stdout, "", false⟩,
        expecting_file := true } [' ', 'f'] := by
  constructor
  · have h := (C4_redirect_parsing.2.2.2.1
      (ParseState.mk ⟨["echo"], []⟩ "hi" false false false none) (by decide)).1
    simpa using h
  · exact (C4_redirect_parsing.2.2.2.2
      (ParseState.mk ⟨["echo"], []⟩ "hi" false false false none) [' ', 'f']
      rfl rfl rfl).2.1 (by decide)

/-- No produced argument and no redirect target is the empty string. -/
def noEmptyTokens (p : ParsedCommand) : Bool :=
  p.args.all (fun a => !a.isEmpty) && p.redirects.all (fun r => !r.file.isEmpty)

theorem finishParse_noEmpty (s : ParseState) (h : noEmptyTokens s.result = true) :
    noEmptyTokens (finishParse s) = true := by
  unfold finishParse
  repeat' split
  all_goals simp_all [noEmptyTokens]

theorem flushArg_noEmpty (s : ParseState) (h : noEmptyTokens s.result = true) :
    noEmptyTokens (flushArg s).result = true := by
  unfold flushArg
  split
  · exact h
  · simp_all [noEmptyTokens]

theorem parseStep_noEmpty (s : ParseState) (c : Char) (rest : List Char)
    (h : noEmptyTokens s.result = true) :
    noEmptyTokens (parseStep s c rest).1.result = true := by
  have hf := flushArg_noEmpty s h
  unfold parseStep
  repeat' split
  all_goals simp_all [noEmptyTokens]

theorem parseLoopF_noEmpty (n : Nat) :
    ∀ (l : List Char) (s : ParseState), l.length ≤ n →
      noEmptyTokens s.result = true → noEmptyTokens (parseLoopF n s l) = true := by
  induction n with
  | zero =>
      intro l s hl h
      cases l with
      | nil => exact finishParse_noEmpty s h
      | cons c rest => simp at hl
  | succ n ih =>
      intro l s hl h
      cases l with
      | nil => exact finishParse_noEmpty s h
      | cons c rest =>
          simp only [parseLoopF]
          have hs := parseStep_length_le s c rest
          simp only [List.length_cons] at hl
          exact ih _ _ (by omega) (parseStep_noEmpty s c rest h)

/-- C10: the tokenizer never produces an empty string as an argument or as
a redirect target; in particular a quoted empty string (`''` or `""`)
contributes no argument at all, because accumulated text is flushed as an
argument or redirect target only when it is non-empty. -/
theorem C10_no_empty_tokens :
    (∀ input : String, noEmptyTokens (parse_arguments input) = true) ∧
    parse_arguments ("echo ''") = ⟨["echo"], []⟩ ∧
    parse_arguments ("echo \"\"") = ⟨["echo"], []⟩ ∧
    parse_arguments ("''") = ⟨[], []⟩ := by
  refine ⟨?_, by decide, by decide, by decide⟩
  intro input
  have hirr := parseLoopF_irrel input.toList.length input.toList.length
  exact parseLoopF_noEmpty input.toList.length input.toList ParseState.init le_rfl rfl

/-! ## Redirect selection (`Shell::write_output`, `Shell::write_error`,
`Shell::cmd_external` in src/main.rs) -/

/-- The redirect a builtin write resolves to: the scan loop shared by
`Shell::write_output` (stream = Stdout) and `Shell::write_error`
(stream = Stderr) — the first parsed redirect for the stream that opens
successfully wins, and `none` means fall back to the process stream.
Whether `open_redirect_file` succeeds is abstracted by `openOk`. -/
def selectRedirect (openOk : Redirect → Bool) (stream : StreamType) :
    List Redirect → Option Redirect
  | [] => none
  | r :: rest =>
      if r.stream == stream && openOk r then some r
      else selectRedirect openOk stream rest

/-- The child stream bindings computed by the redirect loop of
`Shell::cmd_external`: for each redirect in order, a successfully opened
stdout redirect replaces the child's stdout binding (`cmd.stdout(...)`)
and a successfully opened stderr redirect replaces the child's stderr
binding (`cmd.stderr(...)`); each call overwrites any earlier binding. -/
def bindStreams (openOk : Redirect → Bool) (redirects : List Redirect) :
    Option Redirect × Option Redirect :=
  redirects.foldl
    (fun acc r =>
      match r.stream with
      | StreamType.Stdout => if openOk r then (some r, acc.2) else acc
      | StreamType.Stderr => if openOk r then (acc.1, some r) else acc)
    (none, none)

theorem selectRedirect_eq_head_filter (openOk : Redirect → Bool)
    (stream : StreamType) (rs : List Redirect) :
    selectRedirect openOk stream rs =
      (rs.filter (fun r => r.stream == stream && openOk r)).head? := by
  induction rs with
  | nil => rfl
  | cons r rest ih =>
      rw [selectRedirect, List.filter_cons]
      split
      · next hc => simp [hc]
      · next hc => simp [hc, ih]

theorem bindStreams_fst (openOk : Redirect → Bool) (rs : List Redirect) :
    (bindStreams openOk rs).1 =
      (rs.filter (fun r => r.stream == StreamType.Stdout && openOk r)).getLast? := by
  induction rs using List.reverseRecOn with
  | nil => rfl
  | append_singleton rest r ih =>
      unfold bindStreams at ih ⊢
      rw [List.foldl_append, List.filter_append]
      cases hst : r.stream <;> cases hok : openOk r <;>
        simp [hst, hok, ih, List.getLast?_concat]

theorem bindStreams_snd (openOk : Redirect → Bool) (rs : List Redirect) :
    (bindStreams openOk rs).2 =
      (rs.filter (fun r => r.stream == StreamType.Stderr && openOk r)).getLast? := by
  induction rs using List.reverseRecOn with
  | nil => rfl
  | append_singleton rest r ih =>
      unfold bindStreams at ih ⊢
      rw [List.foldl_append, List.filter_append]
      cases hst : r.stream <;> cases hok : openOk r <;>
        simp [hst, hok, ih, List.getLast?_concat]

/-- C2 counterexample: on `echo hi > a.txt > b.txt` both stdout redirects
are parsed (in order `a.txt`, `b.txt`), and with every open succeeding the
external-command stream binding keeps the **last** one (`b.txt`), not the
first — refuting the claim that the first parsed redirect for a stream is
what is honored for the stream bindings of external commands. -/
theorem C2_counterexample :
    (parse_arguments ("echo hi > a.txt > b.txt")).redirects =
      [⟨StreamType.Stdout, "a.txt", false⟩, ⟨StreamType.Stdout, "b.txt", false⟩] ∧
    ¬((bindStreams (fun _ => true)
        (parse_arguments ("echo hi > a.txt > b.txt")).redirects).1 =
      some ⟨StreamType.Stdout, "a.txt", false⟩) := by
  constructor
  · decide
  · decide

/-- C2 amended: multiple redirects for the same stream may be parsed; for
**builtin** output (`write_output` / `write_error`) only the first parsed
redirect for the stream that can be opened is honored (first-match
iteration order); for **external commands** each successfully opened
redirect for a stream overwrites the child's binding in turn, so the
**last** successfully opened redirect for the stream is the one in effect. -/
theorem C2_redirect_shadowing :
    (∀ (openOk : Redirect → Bool) (stream : StreamType) (rs : List Redirect),
      selectRedirect openOk stream rs =
        (rs.filter (fun r => r.stream == stream && openOk r)).head?) ∧
    (∀ (openOk : Redirect → Bool) (rs : List Redirect),
      (bindStreams openOk rs).1 =
        (rs.filter (fun r => r.stream == StreamType.Stdout && openOk r)).getLast? ∧
      (bindStreams openOk rs).2 =
        (rs.filter (fun r => r.stream == StreamType.Stderr && openOk r)).getLast?) ∧
    (parse_arguments ("echo hi > a.txt > b.txt")).redirects =
      [⟨StreamType.Stdout, "a.txt", false⟩, ⟨StreamType.Stdout, "b.txt", false⟩] ∧
    selectRedirect (fun _ => true) StreamType.Stdout
        (parse_arguments ("echo hi > a.txt > b.txt")).redirects =
      some ⟨StreamType.Stdout, "a.txt", false⟩ ∧
    (bindStreams (fun _ => true)
        (parse_arguments ("echo hi > a.txt > b.txt")).redirects).1 =
      some ⟨StreamType.Stdout, "b.txt", false⟩ :=
  ⟨selectRedirect_eq_head_filter,
   fun openOk rs => ⟨bindStreams_fst openOk rs, bindStreams_snd openOk rs⟩,
   by decide, by decide, by decide⟩

/-! ## Dispatch (`Shell::eval`, `Shell::cmd_type` in src/main.rs) -/

/-- The builtin set of `Shell::new`:
`HashSet::from(["echo", "exit", "type", "pwd", "cd"])`. -/
def builtins : List String := ["echo", "exit", "type", "pwd", "cd"]

/-- Where `Shell::eval` sends a non-empty command: the `match` on the
command name tests the five builtin names literally and everything else
falls through to `cmd_external`.  The executable resolver is not consulted
for this decision. -/
inductive Dispatch where
  | builtinEcho
  | builtinType
  | builtinPwd
  | builtinCd
  | builtinExit
  | external
deriving DecidableEq

/-- The dispatch `match` of `Shell::eval`. -/
def evalDispatch (command : String) : Dispatch :=
  if command = "echo" then Dispatch.builtinEcho
  else if command = "type" then Dispatch.builtinType
  else if command = "pwd" then Dispatch.builtinPwd
  else if command = "cd" then Dispatch.builtinCd
  else if command = "exit" then Dispatch.builtinExit
  else Dispatch.external

/-- The message `Shell::cmd_type` produces for one name: the builtin set is
checked before the executable resolver (`find_executable`, abstracted as
`resolver` since it reads the filesystem). -/
def typeMessage (resolver : String → Option String) (cmd : String) : String :=
  if builtins.contains cmd then cmd ++ " is a shell builtin"
  else
    match resolver cmd with
    | some path => cmd ++ " is " ++ path
    | none => cmd ++ ": not found"

/-- C5: every name in the fixed builtin set {echo, type, pwd, cd, exit}
dispatches to its builtin — `evalDispatch` does not consult the executable
resolver at all, so PATH contents cannot shadow a builtin — and `type echo`
reports "echo is a shell builtin" for **every** resolver, in particular for
one that resolves `echo` to an executable on the search path. -/
theorem C5_builtin_precedence :
    (∀ cmd : String, cmd ∈ builtins → evalDispatch cmd ≠ Dispatch.external) ∧
    (builtins.all (fun cmd => evalDispatch cmd ≠ Dispatch.external)) = true ∧
    (∀ resolver : String → Option String,
      typeMessage resolver ("echo") = "echo is a shell builtin") ∧
    typeMessage (fun cmd => if cmd = "echo" then some ("/usr/bin/echo") else none)
        ("echo") = "echo is a shell builtin" := by
  refine ⟨?_, by decide, ?_, by decide⟩
  · intro cmd hc
    simp only [builtins, List.mem_cons, List.not_mem_nil, or_false] at hc
    rcases hc with h | h | h | h | h <;> subst h <;> decide
  · intro resolver
    rfl

/-- Witness for C5 at the concrete builtin name `cd`. -/
theorem C5_builtin_precedence_witness :
    ("cd" ∈ builtins) ∧ evalDispatch ("cd") ≠ Dispatch.external :=
  ⟨by decide, C5_builtin_precedence.1 ("cd") (by decide)⟩

/-! ## Completion engine (`Shell::common_prefix`, `Shell::handle_tab`) -/

/-- Length of the longest common prefix of two character lists: the
`zip` / `take_while (a == b)` / `count` combination used inside
`Shell::common_prefix`, without the cap. -/
def matchLen (a b : List Char) : Nat :=
  ((a.zip b).takeWhile (fun p => p.1 == p.2)).length

/-- The closure folded over the remaining candidates in
`Shell::common_prefix`:
`first.chars().zip(s.chars()).take(prefix_len).take_while(|(a, b)| a == b).count()`. -/
def cpShrink (first : List Char) (pl : Nat) (s : String) : Nat :=
  (((first.zip s.toList).take pl).takeWhile (fun p => p.1 == p.2)).length

/-- `Shell::common_prefix`: `prefix_len` starts at `first.len()` (the
UTF-8 byte count) and shrinks through the remaining candidates; the result
is `first.chars().take(prefix_len).collect()`. -/
def common_prefix (strings : List String) : String :=
  match strings with
  | [] => ""
  | first :: rest =>
      String.mk (first.toList.take (rest.foldl (cpShrink first.toList) first.utf8ByteSize))

/-- `Shell::handle_tab`, with the completion lookup (`find_completions`
reads the search-path directories) abstracted as `complete`; the bell, the
completion menu and the redraws do not change the editor state. -/
def handle_tab (complete : String → List String) (e : LineEditor) : LineEditor :=
  match e.get_word_at_cursor with
  | none => e
  | some (start, stop, w) =>
      match complete (String.mk w) with
      | [] => e
      | [c] => e.replace_word start stop c.toList
      | completions =>
          let common := common_prefix completions
          if common.utf8ByteSize > String.utf8Len w then
            e.replace_word start stop common.toList
          else e

theorem length_le_utf8ByteSize (s : String) : s.toList.length ≤ s.utf8ByteSize := by
  cases s with
  | mk data =>
      show data.length ≤ String.utf8Len data
      induction data with
      | nil => simp
      | cons c cs ih =>
          have := Char.utf8Size_pos c
          simp only [String.utf8Len_cons, List.length_cons]
          omega

theorem takeWhile_take {α : Type} (p : α → Bool) (n : Nat) (l : List α) :
    (l.take n).takeWhile p = (l.takeWhile p).take n := by
  induction l generalizing n with
  | nil => simp
  | cons x xs ih =>
      cases n with
      | zero => simp
      | succ m =>
          rw [List.take_succ_cons, List.takeWhile_cons, List.takeWhile_cons]
          by_cases hp : p x = true
          · simp only [hp, if_true, List.take_succ_cons, ih]
          · simp only [hp, if_false, List.take_nil]
            simp [hp]

theorem cpShrink_eq (a : List Char) (pl : Nat) (s : String) :
    cpShrink a pl s = min pl (matchLen a s.toList) := by
  unfold cpShrink matchLen
  rw [takeWhile_take, List.length_take]

theorem matchLen_le_length (a b : List Char) : matchLen a b ≤ a.length := by
  unfold matchLen
  have h1 : ((a.zip b).takeWhile (fun p => p.1 == p.2)).length ≤ (a.zip b).length := by
    induction a.zip b with
    | nil => simp
    | cons x xs ih =>
        rw [List.takeWhile_cons]
        split
        · simpa using ih
        · simp
  have h2 : (a.zip b).length ≤ a.length := by
    rw [List.length_zip]
    omega
  omega

theorem take_matchLen_eq (a : List Char) (b : List Char) :
    a.take (matchLen a b) = b.take (matchLen a b) := by
  induction a generalizing b with
  | nil => simp [matchLen]
  | cons x xs ih =>
      cases b with
      | nil => simp [matchLen]
      | cons y ys =>
          by_cases hxy : x = y
          · subst hxy
            simp only [matchLen, List.zip_cons_cons, List.takeWhile_cons, beq_self_eq_true,
              if_true, List.length_cons, List.take_succ_cons]
            have hih := ih ys
            unfold matchLen at hih
            rw [hih]
          · have hxy' : (x == y) = false := by simpa using hxy
            simp [matchLen, List.zip_cons_cons, List.takeWhile_cons, hxy']

theorem pref_le_matchLen (p : List Char) (a b : List Char)
    (ha : p <+: a) (hb : p <+: b) : p.length ≤ matchLen a b := by
  induction p generalizing a b with
  | nil => simp
  | cons x p2 ih =>
      obtain ⟨t1, rfl⟩ := ha
      obtain ⟨t2, rfl⟩ := hb
      have hih := ih (p2 ++ t1) (p2 ++ t2) ⟨t1, rfl⟩ ⟨t2, rfl⟩
      simp only [List.cons_append, matchLen, List.zip_cons_cons, List.takeWhile_cons,
        beq_self_eq_true, if_true, List.length_cons]
      unfold matchLen at hih
      omega

theorem take_pref_of_le_matchLen (a b : List Char) (n : Nat)
    (h : n ≤ matchLen a b) : a.take n <+: b := by
  have h1 : a.take n = b.take n := by
    have h2 : a.take n = (a.take (matchLen a b)).take n := by
      rw [List.take_take, Nat.min_eq_left h]
    have h3 : (b.take (matchLen a b)).take n = b.take n := by
      rw [List.take_take, Nat.min_eq_left h]
    rw [h2, take_matchLen_eq, h3]
  rw [h1]
  exact ⟨b.drop n, List.take_append_drop n b⟩

theorem cpFold_le (a : List Char) (rest : List String) (pl : Nat) :
    rest.foldl (cpShrink a) pl ≤ pl := by
  induction rest generalizing pl with
  | nil => simp
  | cons s rest ih =>
      rw [List.foldl_cons]
      have h1 := ih (cpShrink a pl s)
      have h2 : cpShrink a pl s ≤ pl := by
        rw [cpShrink_eq]
        omega
      omega

theorem cpFold_le_matchLen (a : List Char) (rest : List String) (s : String) :
    ∀ pl : Nat, s ∈ rest → rest.foldl (cpShrink a) pl ≤ matchLen a s.toList := by
  induction rest with
  | nil => intro pl hs; simp at hs
  | cons t rest ih =>
      intro pl hs
      rw [List.foldl_cons]
      rcases List.mem_cons.mp hs with h | h
      · subst h
        have h1 := cpFold_le a rest (cpShrink a pl s)
        have h2 : cpShrink a pl s ≤ matchLen a s.toList := by
          rw [cpShrink_eq]
          omega
        omega
      · exact ih (cpShrink a pl t) h

theorem le_cpFold (a : List Char) (rest : List String) (q : Nat) :
    ∀ pl : Nat, q ≤ pl → (∀ s ∈ rest, q ≤ matchLen a s.toList) →
      q ≤ rest.foldl (cpShrink a) pl := by
  induction rest with
  | nil => intro pl hq hall; simpa using hq
  | cons t rest ih =>
      intro pl hq hall
      rw [List.foldl_cons]
      refine ih (cpShrink a pl t) ?_ (fun s hs => hall s (List.mem_cons_of_mem t hs))
      rw [cpShrink_eq]
      have ht := hall t (List.mem_cons_self t rest)
      omega

/-- C6: for a non-empty candidate list, `common_prefix` returns the
character-wise longest common prefix of the candidates — a prefix of every
candidate such that any common prefix of all candidates is no longer —
with "g" for ["git", "grep", "go"] and "gr" for ["grep", "grow"]; and with
two or more candidates the tab handler replaces the word under the cursor
with this common prefix only when it is strictly longer (byte length, as
the source compares `len()`) than the typed partial, otherwise it shows
the candidate menu and leaves the editor unchanged. -/
theorem C6_completion :
    common_prefix ["git", "grep", "go"] = "g" ∧
    common_prefix ["grep", "grow"] = "gr" ∧
    (∀ (first : String) (rest : List String),
      (∀ s ∈ first :: rest, ( common_prefix (first :: rest)).toList <+: s.toList) ∧
      (∀ p : List Char, (∀ s ∈ first :: rest, p <+: s.toList) →
        p.length ≤ ( common_prefix (first :: rest)).toList.length)) ∧
    (∀ (complete : String → List String) (e : LineEditor)
        (start stop : Nat) (w : List Char) (c1 c2 : String) (cs : List String),
      e.get_word_at_cursor = some (start, stop, w) →
      complete (String.mk w) = c1 :: c2 :: cs →
      ((( common_prefix (c1 :: c2 :: cs)).utf8ByteSize ≤ String.utf8Len w →
          handle_tab complete e = e) ∧
       (String.utf8Len w < ( common_prefix (c1 :: c2 :: cs)).utf8ByteSize →
          handle_tab complete e =
            e.replace_word start stop ( common_prefix (c1 :: c2 :: cs)).toList))) := by
  refine ⟨by decide, by decide, ?_, ?_⟩
  · intro first rest
    constructor
    · intro s hs
      show (String.mk (first.toList.take
        (rest.foldl (cpShrink first.toList) first.utf8ByteSize))).toList <+: s.toList
      rcases List.mem_cons.mp hs with h | h
      · subst h
        exact ⟨_, List.take_append_drop _ _⟩
      · exact take_pref_of_le_matchLen _ _ _
          (cpFold_le_matchLen first.toList rest s first.utf8ByteSize h)
    · intro p hp
      have hp1 := hp first (List.mem_cons_self first rest)
      have hq1 : p.length ≤ first.toList.length := by
        obtain ⟨t, ht⟩ := hp1
        have := congrArg List.length ht
        simp only [List.length_append] at this
        omega
      have hq2 : p.length ≤ first.utf8ByteSize :=
        le_trans hq1 (length_le_utf8ByteSize first)
      have hq3 : ∀ s ∈ rest, p.length ≤ matchLen first.toList s.toList := by
        intro s hs
        exact pref_le_matchLen p first.toList s.toList hp1
          (hp s (List.mem_cons_of_mem first hs))
      have hfold := le_cpFold first.toList rest p.length first.utf8ByteSize hq2 hq3
      show p.length ≤ (String.mk (first.toList.take
        (rest.foldl (cpShrink first.toList) first.utf8ByteSize))).toList.length
      show p.length ≤ (first.toList.take
        (rest.foldl (cpShrink first.toList) first.utf8ByteSize)).length
      rw [List.length_take]
      omega
  · intro complete e start stop w c1 c2 cs hword hcomp
    constructor
    · intro hle
      have hc : ¬(( common_prefix (c1 :: c2 :: cs)).utf8ByteSize > String.utf8Len w) := by
        omega
      simp only [handle_tab, hword, hcomp]
      rw [if_neg hc]
    · intro hlt
      have hc : ( common_prefix (c1 :: c2 :: cs)).utf8ByteSize > String.utf8Len w := hlt
      simp only [handle_tab, hword, hcomp]
      rw [if_pos hc]

/-- Witness for C6: tab with candidates ["git", "grep", "go"] for the
typed word "g" leaves the editor unchanged (menu path), and with
candidates ["grep", "grow"] for "g" extends the word to "gr". -/
theorem C6_completion_witness :
    handle_tab (fun _ => ["git", "grep", "go"]) (LineEditor.mk ['g'] 1) =
      LineEditor.mk ['g'] 1 ∧
    handle_tab (fun _ => ["grep", "grow"]) (LineEditor.mk ['g'] 1) =
      (LineEditor.mk ['g'] 1).replace_word 0 1
        ( common_prefix ["grep", "grow"]).toList := by
  constructor
  · exact (C6_completion.2.2.2 (fun _ => ["git", "grep", "go"])
      (LineEditor.mk ['g'] 1) 0 1 ['g'] ("git") ("grep") (["go"])
      (by decide) rfl).1 (by decide)
  · exact (C6_completion.2.2.2 (fun _ => ["grep", "grow"])
      (LineEditor.mk ['g'] 1) 0 1 ['g'] ("grep") ("grow") ([])
      (by decide) rfl).2 (by decide)

/-! ## Word extraction (`LineEditor::get_word_at_cursor`) -/

theorem getD_eq_getElem (l : List Char) (i : Nat) (h : i < l.length) :
    l.getD i ' ' = l[i] := by
  simp [List.getD, List.getElem?_eq_getElem h]

theorem scanBack_nonws (buf : List Char) (s : Nat) :
    ∀ i, scanBack buf s ≤ i → i < s → isAsciiWhitespace (buf.getD i ' ') = false := by
  induction s with
  | zero => intro i h1 h2; omega
  | succ n ih =>
      intro i h1 h2
      by_cases hw : isAsciiWhitespace (buf.getD n ' ') = true
      · rw [scanBack, if_pos hw] at h1
        omega
      · have hw' : isAsciiWhitespace (buf.getD n ' ') = false :=
          Bool.eq_false_iff.mpr hw
        rw [scanBack, if_neg hw] at h1
        rcases Nat.lt_succ_iff_lt_or_eq.mp h2 with h | h
        · exact ih i h1 h
        · rw [h]
          exact hw'

theorem scanBack_stop (buf : List Char) (s : Nat) (h : 0 < scanBack buf s) :
    isAsciiWhitespace (buf.getD (scanBack buf s - 1) ' ') = true := by
  induction s with
  | zero => simp [scanBack] at h
  | succ n ih =>
      by_cases hw : isAsciiWhitespace (buf.getD n ' ') = true
      · rw [scanBack, if_pos hw]
        simpa using hw
      · rw [scanBack, if_neg hw] at h ⊢
        exact ih h

theorem scanFwdGo_nonws (buf : List Char) (left : Nat) :
    ∀ e i, e ≤ i → i < scanFwdGo buf left e →
      isAsciiWhitespace (buf.getD i ' ') = false := by
  induction left with
  | zero =>
      intro e i h1 h2
      simp [scanFwdGo] at h2
      omega
  | succ n ih =>
      intro e i h1 h2
      rw [scanFwdGo] at h2
      split at h2
      · omega
      · next hw =>
        rcases Nat.lt_or_ge e i with h | h
        · exact ih (e + 1) i (by omega) h2
        · have he : i = e := by omega
          rw [he]
          exact Bool.eq_false_iff.mpr hw

theorem scanFwdGo_stop (buf : List Char) (left : Nat) :
    ∀ e, left = buf.length - e → scanFwdGo buf left e < buf.length →
      isAsciiWhitespace (buf.getD (scanFwdGo buf left e) ' ') = true := by
  induction left with
  | zero =>
      intro e hinv hlt
      simp only [scanFwdGo] at hlt ⊢
      omega
  | succ n ih =>
      intro e hinv hlt
      rw [scanFwdGo] at hlt ⊢
      split at hlt
      · next hw =>
        rw [if_pos hw]
        exact hw
      · next hw =>
        rw [if_neg hw]
        exact ih (e + 1) (by omega) hlt

/-- C7 counterexample: in the buffer "ab " with the cursor at the end
(position 3, equal to the buffer length), `get_word_at_cursor` returns the
word `(0, 3, "ab ")`, and its substring contains the whitespace character
' ' — so the returned substring is not a whitespace-free run. -/
theorem C7_counterexample :
    (LineEditor.mk ['a', 'b', ' '] 3).get_word_at_cursor =
      some (0, 3, ['a', 'b', ' ']) ∧
    ' ' ∈ ['a', 'b', ' '] ∧ isAsciiWhitespace ' ' = true := by
  refine ⟨by decide, by decide, by decide⟩

/-- C7 amended: when `get_word_at_cursor` returns `(start, end, substring)`
and the cursor is strictly inside the buffer — or the buffer's final
character is non-whitespace — the substring is a maximal whitespace-free
run: it contains no whitespace character, and the characters immediately
before `start` and at `end` (when they exist) are whitespace.  An
end-of-buffer cursor always resolves to the trailing word (`end` equals the
buffer length) because the scan start is clamped to `length - 1`.  (When
the cursor sits at the end of a buffer whose final character is whitespace,
the returned substring includes that trailing whitespace character — the
position `length - 1` is never examined by either scan — as the
counterexample shows.) -/
theorem C7_word_maximality :
    (∀ (e : LineEditor) (start stop : Nat) (w : List Char),
      e.cursor ≤ e.buffer.length →
      (e.cursor < e.buffer.length ∨
        isAsciiWhitespace (e.buffer.getD (e.buffer.length - 1) ' ') = false) →
      e.get_word_at_cursor = some (start, stop, w) →
      (∀ c ∈ w, isAsciiWhitespace c = false) ∧
      (0 < start → isAsciiWhitespace (e.buffer.getD (start - 1) ' ') = true) ∧
      (stop < e.buffer.length → isAsciiWhitespace (e.buffer.getD stop ' ') = true)) ∧
    (∀ e : LineEditor, e.buffer ≠ [] → e.cursor = e.buffer.length →
      ∃ start w, e.get_word_at_cursor = some (start, e.buffer.length, w)) := by
  constructor
  · intro e start stop w hc hside h
    simp only [LineEditor.get_word_at_cursor] at h
    split at h
    · exact absurd h (by simp)
    · next hne =>
      split at h
      · next hlt =>
        have hnil : e.buffer ≠ [] := by simpa [List.isEmpty_iff] using hne
        have hpos : 0 < e.buffer.length := List.length_pos.mpr hnil
        simp only [Option.some.injEq, Prod.mk.injEq] at h
        obtain ⟨hs, ht, hw⟩ := h
        subst hs
        subst ht
        subst hw
        have hsb := scanBack_le e.buffer (min e.cursor (e.buffer.length - 1))
        have hfl := scanFwd_le e.buffer e.cursor hc
        refine ⟨?_, ?_, ?_⟩
        · intro c hcmem
          obtain ⟨i, hilt, hgi⟩ := List.mem_iff_getElem.mp hcmem
          simp only [List.length_take, List.length_drop] at hilt
          have hjlt : scanBack e.buffer (min e.cursor (e.buffer.length - 1)) + i <
              scanFwd e.buffer e.cursor := by omega
          have hjlen : scanBack e.buffer (min e.cursor (e.buffer.length - 1)) + i <
              e.buffer.length := by omega
          have hcval : c =
              e.buffer[scanBack e.buffer (min e.cursor (e.buffer.length - 1)) + i] := by
            rw [← hgi, List.getElem_take, List.getElem_drop]
          have hgd : e.buffer.getD
              (scanBack e.buffer (min e.cursor (e.buffer.length - 1)) + i) ' ' = c := by
            rw [getD_eq_getElem e.buffer _ hjlen, ← hcval]
          rcases Nat.lt_or_ge (scanBack e.buffer (min e.cursor (e.buffer.length - 1)) + i)
              (min e.cursor (e.buffer.length - 1)) with hj | hj
          · rw [← hgd]
            exact scanBack_nonws e.buffer (min e.cursor (e.buffer.length - 1)) _
              (by omega) hj
          · rcases Nat.lt_or_ge e.cursor e.buffer.length with hcase | hcase
            · rw [← hgd]
              refine scanFwdGo_nonws e.buffer (e.buffer.length - e.cursor) e.cursor _
                (by omega) ?_
              exact hjlt
            · have hlast : isAsciiWhitespace
                  (e.buffer.getD (e.buffer.length - 1) ' ') = false := by
                rcases hside with hside1 | hside1
                · omega
                · exact hside1
              have hji : scanBack e.buffer (min e.cursor (e.buffer.length - 1)) + i =
                  e.buffer.length - 1 := by omega
              rw [← hgd, hji]
              exact hlast
        · intro hstart
          exact scanBack_stop e.buffer (min e.cursor (e.buffer.length - 1)) hstart
        · intro hstoplt
          exact scanFwdGo_stop e.buffer (e.buffer.length - e.cursor) e.cursor rfl hstoplt
      · exact absurd h (by simp)
  · intro e hne hcur
    have hpos : 0 < e.buffer.length := List.length_pos.mpr hne
    have hstop : scanFwd e.buffer e.cursor = e.buffer.length := by
      unfold scanFwd
      rw [hcur, Nat.sub_self]
      rfl
    have hsb := scanBack_le e.buffer (min e.cursor (e.buffer.length - 1))
    refine ⟨scanBack e.buffer (min e.cursor (e.buffer.length - 1)),
      (e.buffer.drop (scanBack e.buffer (min e.cursor (e.buffer.length - 1)))).take
        (e.buffer.length - scanBack e.buffer (min e.cursor (e.buffer.length - 1))), ?_⟩
    simp only [LineEditor.get_word_at_cursor]
    rw [if_neg (by simpa [List.isEmpty_iff] using hne)]
    rw [hstop]
    rw [if_pos (by omega)]

/-- Witness for C7 at a concrete state: buffer "ab cd" with the cursor on
the space resolves to the word "ab", which is whitespace-free and bounded
by whitespace on the right. -/
theorem C7_word_maximality_witness :
    (∀ c ∈ ['a', 'b'], isAsciiWhitespace c = false) ∧
    isAsciiWhitespace ((['a', 'b', ' ', 'c', 'd'] : List Char).getD 2 ' ') = true := by
  have h := (C7_word_maximality.1 (LineEditor.mk ['a', 'b', ' ', 'c', 'd'] 2)
    0 2 ['a', 'b'] (by decide) (Or.inl (by decide)) (by decide))
  exact ⟨h.1, h.2.2 (by decide)⟩

/-! ## Evaluator effects (`Shell::eval`, `Shell::open_redirect_file`,
`Shell::write_output`, `Shell::write_error`, `Shell::cmd_*`) -/

/-- The filesystem model: file contents (lines written) by path. -/
abbrev FS := List (String × List String)

/-- Look up a file's contents. -/
def fsGet (fs : FS) (path : String) : Option (List String) :=
  (fs.find? (fun e => e.1 == path)).map (fun e => e.2)

/-- Create a file or replace its contents. -/
def fsSet (fs : FS) (path : String) (lines : List String) : FS :=
  match fs with
  | [] => [(path, lines)]
  | e :: rest => if e.1 == path then (path, lines) :: rest else e :: fsSet rest path lines

/-- Environment oracles for the evaluator: whether opening a path succeeds
(`openable`), executable resolution (`find_executable`, as `resolver`), the
working-directory query of `pwd` (`cwd`, `none` when it fails, `cwdErr` the
OS error text), and the `cd` environment (home directory from HOME /
USERPROFILE, path existence, whether `set_current_dir` succeeds, OS error
text). -/
structure ShellEnv where
  openable : String → Bool
  resolver : String → Option String
  cwd : Option String
  cwdErr : String
  home : String
  pathExists : String → Bool
  chdirOk : String → Bool
  chdirErr : String

/-- `Shell::open_redirect_file` over the filesystem model: append mode
opens with create+append (existing contents kept, an absent file created
empty); truncate mode (`File::create`) truncates to empty.  Whether the
OS-level open succeeds is abstracted by `openable`; on failure (`Err`) the
filesystem is untouched. -/
def open_redirect_file (openable : String → Bool) (fs : FS) (r : Redirect) :
    Option FS :=
  if openable r.file then
    if r.append then
      match fsGet fs r.file with
      | some _ => some fs
      | none => some (fsSet fs r.file [])
    else some (fsSet fs r.file [])
  else none

/-- The eager pre-open loop at the top of `Shell::eval`
(`for redirect in &parsed.redirects { let _ = Self::open_redirect_file(redirect); }`):
every target is opened, results (including failures) are discarded.  The
redirect loop of `Shell::cmd_external` has the same filesystem effect: it
opens every redirect in order (binding the child's streams as it goes,
see `bindStreams`) and ignores failures. -/
def preOpen (openable : String → Bool) (fs : FS) (redirects : List Redirect) : FS :=
  redirects.foldl
    (fun fs r =>
      match open_redirect_file openable fs r with
      | some fs2 => fs2
      | none => fs) fs

/-- `Shell::write_output` over the filesystem model: the first stdout
redirect that opens successfully receives the line (the open truncates
again in truncate mode), otherwise the line goes to the console.  Returns
the filesystem and the console stdout lines. -/
def write_output (openable : String → Bool) (fs : FS) (message : String) :
    List Redirect → FS × List String
  | [] => (fs, [message])
  | r :: rest =>
      if r.stream == StreamType.Stdout then
        match open_redirect_file openable fs r with
        | some fs2 => (fsSet fs2 r.file ((fsGet fs2 r.file).getD [] ++ [message]), [])
        | none => write_output openable fs message rest
      else write_output openable fs message rest

/-- `Shell::write_error`, the stderr twin of `write_output`. -/
def write_error (openable : String → Bool) (fs : FS) (message : String) :
    List Redirect → FS × List String
  | [] => (fs, [message])
  | r :: rest =>
      if r.stream == StreamType.Stderr then
        match open_redirect_file openable fs r with
        | some fs2 => (fsSet fs2 r.file ((fsGet fs2 r.file).getD [] ++ [message]), [])
        | none => write_error openable fs message rest
      else write_error openable fs message rest

/-- Rust `str::starts_with` on character lists. -/
def listIsPre : List Char → List Char → Bool
  | [], _ => true
  | _ :: _, [] => false
  | a :: pre2, b :: l2 => a == b && listIsPre pre2 l2

/-- The tilde expansion of `Shell::cmd_cd`: an empty argument or "~" means
the home directory; a leading "~/" is replaced by the home directory
(`format!("{}{}", home, &path[1..])` keeps the slash); anything else is
used verbatim. -/
def expandPath (home : String) (arg : String) : String :=
  if arg = "" || arg = "~" then home
  else if listIsPre ("~/".toList) arg.toList then
    String.mk (home.toList ++ arg.toList.drop 1)
  else arg

/-- `Shell::cmd_cd`, with the filesystem and OS consulted through `env`:
the result is the new working directory (`some path` exactly when
`set_current_dir` was reached and succeeded; `none` means the directory is
unchanged) together with the messages handed to `write_error`, which
routes them to the effective error stream. -/
def cmd_cd (env : ShellEnv) (args : List String) : Option String × List String :=
  let path := expandPath env.home (args.headD "")
  if env.pathExists path then
    if env.chdirOk path then (some path, [])
    else (none, ["cd: " ++ path ++ ": " ++ env.chdirErr])
  else (none, ["cd: " ++ path ++ ": No such file or directory"])

/-- The observable result of evaluating one parsed line: the filesystem,
the console stdout and stderr lines, and the directory change made by
`cd` (when any). -/
structure EvalResult where
  fs : FS
  conOut : List String
  conErr : List String
  chdirTo : Option String
deriving DecidableEq

/-- `Shell::cmd_type` over the filesystem model: one message per argument,
each routed through `write_output` / `write_error`. -/
def cmd_type_fs (env : ShellEnv) (fs : FS) (parsed : ParsedCommand) :
    FS × List String × List String :=
  parsed.args.foldl
    (fun acc cmd =>
      if cmd.isEmpty then acc
      else if builtins.contains cmd then
        let w := write_output env.openable acc.1 (cmd ++ " is a shell builtin")
          parsed.redirects
        (w.1, acc.2.1 ++ w.2, acc.2.2)
      else
        match env.resolver cmd with
        | some path =>
            let w := write_output env.openable acc.1 (cmd ++ " is " ++ path)
              parsed.redirects
            (w.1, acc.2.1 ++ w.2, acc.2.2)
        | none =>
            let w := write_error env.openable acc.1 (cmd ++ ": not found")
              parsed.redirects
            (w.1, acc.2.1, acc.2.2 ++ w.2))
    (fs, [], [])

/-- `Shell::eval` over the filesystem model.  After the empty-command check
the eager pre-open loop runs unconditionally, then the dispatch `match`
runs on its result.  `exit` terminates the process (no writes); an
external command's child process and a spawn failure's error text are
outside the model — the filesystem effect of the external path is its
redirect-binding loop, which opens every redirect again. -/
def evalFS (env : ShellEnv) (fs : FS) (command : String) (parsed : ParsedCommand) :
    EvalResult :=
  if command = "" then ⟨fs, [], [], none⟩
  else
    let fs1 := preOpen env.openable fs parsed.redirects
    if command = "echo" then
      let w := write_output env.openable fs1 (String.intercalate " " parsed.args)
        parsed.redirects
      ⟨w.1, w.2, [], none⟩
    else if command = "type" then
      let w := cmd_type_fs env fs1 parsed
      ⟨w.1, w.2.1, w.2.2, none⟩
    else if command = "pwd" then
      match env.cwd with
      | some p =>
          let w := write_output env.openable fs1 p parsed.redirects
          ⟨w.1, w.2, [], none⟩
      | none =>
          let w := write_error env.openable fs1 ("pwd: " ++ env.cwdErr) parsed.redirects
          ⟨w.1, [], w.2, none⟩
    else if command = "cd" then
      let r := cmd_cd env parsed.args
      let w := r.2.foldl
        (fun acc m =>
          let w2 := write_error env.openable acc.1 m parsed.redirects
          (w2.1, acc.2 ++ w2.2)) (fs1, [])
      ⟨w.1, [], w.2, r.1⟩
    else if command = "exit" then
      ⟨fs1, [], [], none⟩
    else
      match env.resolver command with
      | some _ => ⟨preOpen env.openable fs1 parsed.redirects, [], [], none⟩
      | none =>
          let w := write_error env.openable fs1 (command ++ ": command not found")
            parsed.redirects
          ⟨w.1, [], w.2, none⟩

theorem write_output_fallback (openable : String → Bool) (fs : FS) (message : String)
    (redirects : List Redirect)
    (h : ∀ r ∈ redirects, r.stream = StreamType.Stdout → openable r.file = false) :
    write_output openable fs message redirects = (fs, [message]) := by
  induction redirects with
  | nil => rfl
  | cons r rest ih =>
      rw [write_output]
      by_cases hst : r.stream = StreamType.Stdout
      · have hop := h r (List.mem_cons_self r rest) hst
        have hbe : (r.stream == StreamType.Stdout) = true := by simp [hst]
        rw [hbe]
        simp only [if_true]
        rw [open_redirect_file, if_neg (by simp [hop])]
        exact ih (fun r2 h2 => h r2 (List.mem_cons_of_mem r h2))
      · have hbe : (r.stream == StreamType.Stdout) = false := by simpa using hst
        rw [hbe]
        simp only [Bool.false_eq_true, if_false]
        exact ih (fun r2 h2 => h r2 (List.mem_cons_of_mem r h2))

/-- C8: for every non-empty command, `eval` eagerly opens (creating and
truncating, or appending, per the flag) every parsed redirect target before
dispatching — even when the dispatched command never writes to that stream
(echo with a stderr redirect) and even when the command is not found; a
failed open is swallowed without aborting evaluation; and a stream whose
redirects cannot be opened at write time falls back to the process's
standard stream. -/
theorem C8_eager_redirects :
    (∀ (env : ShellEnv) (fs : FS) (args : List String) (r : Redirect),
      r.stream = StreamType.Stderr → r.append = false → env.openable r.file = true →
      (evalFS env fs ("echo") ⟨args, [r]⟩).fs = fsSet fs r.file [] ∧
      (evalFS env fs ("echo") ⟨args, [r]⟩).conOut = [String.intercalate " " args]) ∧
    (∀ (env : ShellEnv) (fs : FS) (command : String) (args : List String) (r : Redirect),
      command ≠ "" → command ≠ "echo" → command ≠ "type" → command ≠ "pwd" →
      command ≠ "cd" → command ≠ "exit" → env.resolver command = none →
      r.stream = StreamType.Stdout → r.append = false → env.openable r.file = true →
      (evalFS env fs command ⟨args, [r]⟩).fs = fsSet fs r.file [] ∧
      (evalFS env fs command ⟨args, [r]⟩).conErr = [command ++ ": command not found"]) ∧
    (∀ (env : ShellEnv) (fs : FS) (args : List String) (r : Redirect),
      env.openable r.file = false →
      evalFS env fs ("echo") ⟨args, [r]⟩ =
        ⟨fs, [String.intercalate " " args], [], none⟩) ∧
    (∀ (openable : String → Bool) (fs : FS) (message : String)
        (redirects : List Redirect),
      (∀ r ∈ redirects, r.stream = StreamType.Stdout → openable r.file = false) →
      write_output openable fs message redirects = (fs, [message])) := by
  refine ⟨?_, ?_, ?_, write_output_fallback⟩
  · intro env fs args r hst happ hop
    have h1 : preOpen env.openable fs [r] = fsSet fs r.file [] := by
      simp [preOpen, open_redirect_file, hop, happ]
    have hbe : (r.stream == StreamType.Stdout) = false := by
      rw [hst]
      decide
    have h2 : ∀ fsx : FS, write_output env.openable fsx
        (String.intercalate " " args) [r] = (fsx, [String.intercalate " " args]) := by
      intro fsx
      rw [write_output, hbe]
      simp only [Bool.false_eq_true, if_false]
      rfl
    constructor
    · simp only [evalFS, if_neg (by decide : ¬("echo" : String) = ""),
        if_pos rfl, if_true, h1, h2]
    · simp only [evalFS, if_neg (by decide : ¬("echo" : String) = ""),
        if_pos rfl, if_true, h1, h2]
  · intro env fs command args r hne he ht hp hc hx hres hst happ hop
    have h1 : preOpen env.openable fs [r] = fsSet fs r.file [] := by
      simp [preOpen, open_redirect_file, hop, happ]
    have hbe : (r.stream == StreamType.Stderr) = false := by
      rw [hst]
      decide
    have h2 : ∀ fsx : FS, write_error env.openable fsx
        (command ++ ": command not found") [r] =
        (fsx, [command ++ ": command not found"]) := by
      intro fsx
      rw [write_error, hbe]
      simp only [Bool.false_eq_true, if_false]
      rfl
    constructor
    · simp only [evalFS, if_neg hne, if_neg he, if_neg ht, if_neg hp, if_neg hc,
        if_neg hx, hres, h1, h2]
    · simp only [evalFS, if_neg hne, if_neg he, if_neg ht, if_neg hp, if_neg hc,
        if_neg hx, hres, h1, h2]
  · intro env fs args r hop
    have h1 : preOpen env.openable fs [r] = fs := by
      simp [preOpen, open_redirect_file, hop]
    have h2 : write_output env.openable fs (String.intercalate " " args) [r] =
        (fs, [String.intercalate " " args]) := by
      rw [write_output]
      by_cases hst : (r.stream == StreamType.Stdout) = true
      · rw [hst]
        simp only [if_true]
        rw [open_redirect_file, if_neg (by simp [hop])]
        rfl
      · rw [Bool.eq_false_iff.mpr hst]
        simp only [Bool.false_eq_true, if_false]
        rfl
    simp only [evalFS, if_neg (by decide : ¬("echo" : String) = ""), if_pos rfl,
      if_true, h1, h2]

/-- Witness for C8: with a single unopenable stdout redirect, echo still
evaluates and its output falls back to the console. -/
theorem C8_eager_redirects_witness :
    evalFS ⟨fun _ => false, fun _ => none, none, "", "", fun _ => false,
        fun _ => false, ""⟩ [] ("echo") ⟨["hi"], [⟨StreamType.Stdout, "out.txt", false⟩]⟩ =
      ⟨[], [String.intercalate " " ["hi"]], [], none⟩ :=
  (C8_eager_redirects.2.2.1 ⟨fun _ => false, fun _ => none, none, "", "",
    fun _ => false, fun _ => false, ""⟩ [] ["hi"]
    ⟨StreamType.Stdout, "out.txt", false⟩ rfl)

/-- The string `hay` mentions `needle`: the needle occurs contiguously. -/
def mentions (needle hay : String) : Prop :=
  ∃ pre post, hay.toList = pre ++ needle.toList ++ post

/-- C9: when the resolved target of `cd` (after tilde expansion) does not
exist, the working directory is unchanged (`set_current_dir` is never
reached) and exactly one message — mentioning the path and the text
"No such file or directory" — is handed to the effective error stream; the
directory changes only when the target exists and the underlying change
succeeds, and then it changes to the resolved path. -/
theorem C9_cd_nonexistent :
    (∀ (env : ShellEnv) (args : List String),
      env.pathExists (expandPath env.home (args.headD "")) = false →
      ( cmd_cd env args).1 = none ∧
      ( cmd_cd env args).2 =
        ["cd: " ++ expandPath env.home (args.headD "") ++ ": No such file or directory"] ∧
      mentions (expandPath env.home (args.headD ""))
        ("cd: " ++ expandPath env.home (args.headD "") ++ ": No such file or directory") ∧
      mentions ("No such file or directory")
        ("cd: " ++ expandPath env.home (args.headD "") ++ ": No such file or directory")) ∧
    (∀ (env : ShellEnv) (args : List String) (p : String),
      ( cmd_cd env args).1 = some p →
      env.pathExists (expandPath env.home (args.headD "")) = true ∧
      env.chdirOk (expandPath env.home (args.headD "")) = true ∧
      p = expandPath env.home (args.headD "")) := by
  constructor
  · intro env args h
    refine ⟨?_, ?_, ?_, ?_⟩
    · simp only [cmd_cd, h, Bool.false_eq_true, if_false]
    · simp only [cmd_cd, h, Bool.false_eq_true, if_false]
    · refine ⟨("cd: ").toList, (": No such file or directory").toList, ?_⟩
      show (("cd: " ++ expandPath env.home (args.headD "") ++
        ": No such file or directory")).data = _
      simp [String.data_append]
    · refine ⟨("cd: ").toList ++ (expandPath env.home (args.headD "")).toList ++
        (": ").toList, [], ?_⟩
      show (("cd: " ++ expandPath env.home (args.headD "") ++
        ": No such file or directory")).data = _
      simp [String.data_append, String.toList]
  · intro env args p h
    simp only [cmd_cd] at h
    split at h
    · next hex =>
      split at h
      · next hok =>
        simp only [Option.some.injEq] at h
        exact ⟨hex, hok, h.symm⟩
      · simp at h
    · simp at h

/-- Witness for C9 at a concrete environment where no path exists. -/
theorem C9_cd_nonexistent_witness :
    ( cmd_cd ⟨fun _ => true, fun _ => none, none, "", "/home/u", fun _ => false,
        fun _ => false, "eio"⟩ ["/nope"]).1 = none ∧
    ( cmd_cd ⟨fun _ => true, fun _ => none, none, "", "/home/u", fun _ => false,
        fun _ => false, "eio"⟩ ["/nope"]).2 =
      ["cd: " ++ expandPath ("/home/u") ("/nope") ++ ": No such file or directory"] := by
  have h := C9_cd_nonexistent.1 ⟨fun _ => true, fun _ => none, none, "", "/home/u",
    fun _ => false, fun _ => false, "eio"⟩ ["/nope"] rfl
  exact ⟨h.1, h.2.1⟩
